import Mathlib

/-!
Pendulum integrators (`Main.cpp`).

A shallow embedding of the numerical core of `Main.cpp`: the constants, the
right-hand sides `f` and `g`, the three step functions
`RungeKuttaIntegration`, `EulerIntegration`, `VerletIntegration`, and the
part of `main` that initialises and advances the three simulations.

Modelling conventions.

* The C++ `float`/`double` values are elements of an arbitrary linearly
  ordered field `K`; arithmetic is exact (no rounding, no overflow).  With
  `K = ℚ` and a computable `sin : ℚ → ℚ` every definition below evaluates;
  with `K = ℝ` and `Real.sin` one obtains the mathematical reading of the
  program.
* The library function `sin` is not part of the repository.  It is a
  parameter `sin : K → K` of every definition that calls it; theorems that
  need a property of the sine either assume it or are stated for `Real.sin`.
* A function with reference parameters returns the values its parameters
  hold on return.  Each assignment of the source is one `let`, in source
  order, so that a later line reads the values written by earlier ones.
-/

namespace Pendulum

section Source

variable {K : Type} [LinearOrderedField K]

/-! ## Constants (`Main.cpp`, lines 11-17) -/

/-- The macro `PI`: the approximate value `3.141592`. -/
def PI : K := 3.141592

/-- The macro `H`: the time step length. -/
def H : K := 0.005

/-- The macro `ROD_LENGHT`: the length of the rod. -/
def ROD_LENGHT : K := 0.8

/-- The macro `GRAVITY`: the gravitational constant. -/
def GRAVITY : K := 9.81

/-- The macro `THETA_INIT_VALUE`, which expands to `PI / 4`. -/
def THETA_INIT_VALUE : K := PI / 4

/-- The macro `ANGULAR_VELOCITY_INIT_VALUE`. -/
def ANGULAR_VELOCITY_INIT_VALUE : K := 2

/-- The macro `TIME_INIT_VALUE`. -/
def TIME_INIT_VALUE : K := 0

/-! ## Right-hand sides (`Main.cpp`, lines 37-45) -/

/-- The function `f`: the angular velocity. -/
def f (_time _theta omega : K) : K :=
  omega

/-- The function `g`: the angular acceleration `-(GRAVITY / ROD_LENGHT) * sin(theta)`. -/
def g (sin : K → K) (_time theta _omega : K) : K :=
  (-(GRAVITY / ROD_LENGHT)) * sin theta

/-! ## States -/

/-- The values of the three reference parameters `theta`, `angular_velocity`
and `time` of `RungeKuttaIntegration` and `EulerIntegration`. -/
@[ext]
structure PendulumState (K : Type) where
  theta : K
  angular_velocity : K
  time : K

/-- The values of the four reference parameters of `VerletIntegration`. -/
@[ext]
structure VerletState (K : Type) where
  theta : K
  angular_velocity : K
  time : K
  theta_old : K

/-! ## Step functions (`Main.cpp`, lines 47-87) -/

/-- The function `RungeKuttaIntegration` (lines 47-65). -/
def RungeKuttaIntegration (sin : K → K) (theta angular_velocity time : K) : PendulumState K :=
  let k1_1 := H * f time theta angular_velocity
  let k1_2 := H * g sin time theta angular_velocity
  let k2_1 := H * f (time + H / 2) (theta + k1_1 / 2) (angular_velocity + k1_2 / 2)
  let k2_2 := H * g sin (time + H / 2) (theta + k1_1 / 2) (angular_velocity + k1_2 / 2)
  let k3_1 := H * f (time + H / 2) (theta + k2_1 / 2) (angular_velocity + k2_2 / 2)
  let k3_2 := H * g sin (time + H / 2) (theta + k2_1 / 2) (angular_velocity + k2_2 / 2)
  let k4_1 := H * f (time + H) (theta + k3_1) (angular_velocity + k3_2)
  let k4_2 := H * g sin (time + H) (theta + k3_1) (angular_velocity + k3_2)
  let theta := theta + (k1_1 + 2 * k2_1 + 2 * k3_1 + k4_1) / 6
  let angular_velocity := angular_velocity + (k1_2 + 2 * k2_2 + 2 * k3_2 + k4_2) / 6
  let theta := if theta > 2 * PI then theta - 2 * PI else theta
  let theta := if theta < -2 * PI then theta + 2 * PI else theta
  let time := time + H
  ⟨theta, angular_velocity, time⟩

/-- The function `EulerIntegration` (lines 67-75). -/
def EulerIntegration (sin : K → K) (theta angular_velocity time : K) : PendulumState K :=
  let theta := theta + H * angular_velocity
  let angular_velocity := angular_velocity + H * g sin time theta angular_velocity
  let theta := if theta > 2 * PI then theta - 2 * PI else theta
  let theta := if theta < -2 * PI then theta + 2 * PI else theta
  let time := time + H
  ⟨theta, angular_velocity, time⟩

/-- The function `VerletIntegration` (lines 77-87). -/
def VerletIntegration (sin : K → K) (theta angular_velocity time theta_old : K) :
    VerletState K :=
  let theta_new := 2 * theta - theta_old + H * H * g sin time theta angular_velocity
  let angular_velocity := (theta_new - theta_old) / (2 * H)
  let theta_old := theta
  let theta := theta_new
  let theta := if theta > 2 * PI then theta - 2 * PI else theta
  let theta := if theta < -2 * PI then theta + 2 * PI else theta
  let time := time + H
  ⟨theta, angular_velocity, time, theta_old⟩

/-! ## The driver (`main`, lines 159-173 and 175-241) -/

/-- The ten simulation variables of `main`. -/
@[ext]
structure DriverState (K : Type) where
  theta_rk : K
  angular_velocity_rk : K
  time_rk : K
  theta_euler : K
  angular_velocity_euler : K
  time_euler : K
  theta_verlet : K
  angular_velocity_verlet : K
  time_verlet : K
  theta_old_verlet : K

/-- The initialisation of the simulation variables (lines 159-173). -/
def initialState : DriverState K :=
  { theta_rk := THETA_INIT_VALUE
    angular_velocity_rk := ANGULAR_VELOCITY_INIT_VALUE
    time_rk := TIME_INIT_VALUE
    theta_euler := THETA_INIT_VALUE
    angular_velocity_euler := ANGULAR_VELOCITY_INIT_VALUE
    time_euler := TIME_INIT_VALUE
    theta_verlet := THETA_INIT_VALUE
    angular_velocity_verlet := ANGULAR_VELOCITY_INIT_VALUE
    time_verlet := TIME_INIT_VALUE
    theta_old_verlet := THETA_INIT_VALUE - ANGULAR_VELOCITY_INIT_VALUE * H }

/-- One iteration of the `while` loop of `main` (lines 175-241), restricted to
the simulation variables: the three calls at lines 189, 206 and 223, in that
order.  The drawing calls between them only read `theta_*`. -/
def tick (sin : K → K) (s : DriverState K) : DriverState K :=
  let rk := RungeKuttaIntegration sin s.theta_rk s.angular_velocity_rk s.time_rk
  let s := { s with theta_rk := rk.theta, angular_velocity_rk := rk.angular_velocity,
                    time_rk := rk.time }
  let eu := EulerIntegration sin s.theta_euler s.angular_velocity_euler s.time_euler
  let s := { s with theta_euler := eu.theta, angular_velocity_euler := eu.angular_velocity,
                    time_euler := eu.time }
  let ve := VerletIntegration sin s.theta_verlet s.angular_velocity_verlet s.time_verlet
    s.theta_old_verlet
  { s with theta_verlet := ve.theta, angular_velocity_verlet := ve.angular_velocity,
           time_verlet := ve.time, theta_old_verlet := ve.theta_old }

end Source

section Specification

variable {K : Type} [LinearOrderedField K]

/-! ## Vocabulary of the specification -/

/-- The angular acceleration as a function of the angle alone:
`-(GRAVITY / ROD_LENGHT) * sin x`. -/
def accel (sin : K → K) (x : K) : K :=
  (-(GRAVITY / ROD_LENGHT)) * sin x

/-- The single-shift wrap: `u` inside `[-2*PI, 2*PI]`, `u - 2*PI` above it,
`u + 2*PI` below it. -/
def wrap (u : K) : K :=
  if u > 2 * PI then u - 2 * PI else if u < -2 * PI then u + 2 * PI else u

/-- The predicate `-2*PI ≤ theta ≤ 2*PI`. -/
def inRange (theta : K) : Prop :=
  -2 * PI ≤ theta ∧ theta ≤ 2 * PI

/-- The explicit-Euler velocity update, which evaluates the acceleration at
the pre-step angle. -/
def explicitEulerOmega (sin : K → K) (theta omega : K) : K :=
  omega + H * accel sin theta

/-- The unwrapped new angle of the Euler step. -/
def EulerUnwrapped (theta omega : K) : K :=
  theta + H * omega

/-- Stage value `k1_1 = H*omega`. -/
def stage_k1_1 (omega : K) : K := H * omega

/-- Stage value `k1_2 = H*g(theta)`. -/
def stage_k1_2 (sin : K → K) (theta : K) : K := H * accel sin theta

/-- Stage value `k2_1 = H*(omega + k1_2/2)`. -/
def stage_k2_1 (sin : K → K) (theta omega : K) : K :=
  H * (omega + stage_k1_2 sin theta / 2)

/-- Stage value `k2_2 = H*g(theta + k1_1/2)`. -/
def stage_k2_2 (sin : K → K) (theta omega : K) : K :=
  H * accel sin (theta + stage_k1_1 omega / 2)

/-- Stage value `k3_1 = H*(omega + k2_2/2)`. -/
def stage_k3_1 (sin : K → K) (theta omega : K) : K :=
  H * (omega + stage_k2_2 sin theta omega / 2)

/-- Stage value `k3_2 = H*g(theta + k2_1/2)`. -/
def stage_k3_2 (sin : K → K) (theta omega : K) : K :=
  H * accel sin (theta + stage_k2_1 sin theta omega / 2)

/-- Stage value `k4_1 = H*(omega + k3_2)`. -/
def stage_k4_1 (sin : K → K) (theta omega : K) : K :=
  H * (omega + stage_k3_2 sin theta omega)

/-- Stage value `k4_2 = H*g(theta + k3_1)`. -/
def stage_k4_2 (sin : K → K) (theta omega : K) : K :=
  H * accel sin (theta + stage_k3_1 sin theta omega)

/-- The unwrapped new angle of the Runge-Kutta step:
`theta + (k1_1 + 2*k2_1 + 2*k3_1 + k4_1)/6`. -/
def RungeKuttaUnwrapped (sin : K → K) (theta omega : K) : K :=
  theta + (stage_k1_1 omega + 2 * stage_k2_1 sin theta omega
    + 2 * stage_k3_1 sin theta omega + stage_k4_1 sin theta omega) / 6

/-- The new angular velocity of the Runge-Kutta step:
`omega + (k1_2 + 2*k2_2 + 2*k3_2 + k4_2)/6`. -/
def RungeKuttaOmega (sin : K → K) (theta omega : K) : K :=
  omega + (stage_k1_2 sin theta + 2 * stage_k2_2 sin theta omega
    + 2 * stage_k3_2 sin theta omega + stage_k4_2 sin theta omega) / 6

/-- The unwrapped new angle of the Verlet step:
`theta_new = 2*theta - theta_old + H^2*g(theta)`. -/
def VerletThetaNew (sin : K → K) (theta theta_old : K) : K :=
  2 * theta - theta_old + H ^ 2 * accel sin theta

/-! ## Steps on states and runs -/

/-- One call of `RungeKuttaIntegration` on a state. -/
def RungeKuttaStep (sin : K → K) (s : PendulumState K) : PendulumState K :=
  RungeKuttaIntegration sin s.theta s.angular_velocity s.time

/-- One call of `EulerIntegration` on a state. -/
def EulerStep (sin : K → K) (s : PendulumState K) : PendulumState K :=
  EulerIntegration sin s.theta s.angular_velocity s.time

/-- One call of `VerletIntegration` on a state. -/
def VerletStep (sin : K → K) (s : VerletState K) : VerletState K :=
  VerletIntegration sin s.theta s.angular_velocity s.time s.theta_old

/-- The Runge-Kutta simulation variables of the driver. -/
def rkPart (s : DriverState K) : PendulumState K :=
  ⟨s.theta_rk, s.angular_velocity_rk, s.time_rk⟩

/-- The Euler simulation variables of the driver. -/
def eulerPart (s : DriverState K) : PendulumState K :=
  ⟨s.theta_euler, s.angular_velocity_euler, s.time_euler⟩

/-- The Verlet simulation variables of the driver. -/
def verletPart (s : DriverState K) : VerletState K :=
  ⟨s.theta_verlet, s.angular_velocity_verlet, s.time_verlet, s.theta_old_verlet⟩

/-- The contract of the wrap, relating the unwrapped angle `u` to the
returned angle: `u` is returned unchanged inside `[-2*PI, 2*PI]`, shifted
down by `2*PI` above it and up by `2*PI` below it; the returned angle lies in
`[-2*PI, 2*PI]` exactly when `|u| ≤ 4*PI`. -/
def wrapContract (u returned : K) : Prop :=
  (-2 * PI ≤ u ∧ u ≤ 2 * PI → returned = u)
    ∧ (u > 2 * PI → returned = u - 2 * PI)
    ∧ (u < -2 * PI → returned = u + 2 * PI)
    ∧ (inRange returned ↔ |u| ≤ 4 * PI)

end Specification

section Lemmas

variable {K : Type} [LinearOrderedField K]

theorem PI_pos : (0 : K) < PI := by
  unfold PI; norm_num

/-- The two consecutive `if` statements of the source compute `wrap`. -/
theorem two_ifs_eq_wrap (u : K) :
    (if (if u > 2 * PI then u - 2 * PI else u) < -2 * PI
      then (if u > 2 * PI then u - 2 * PI else u) + 2 * PI
      else (if u > 2 * PI then u - 2 * PI else u)) = wrap u := by
  have hpi : (0 : K) < PI := PI_pos
  unfold wrap
  by_cases h1 : u > 2 * PI
  · have h2 : ¬ (u - 2 * PI < -2 * PI) := by intro h; linarith
    simp only [h1, if_true, h2, if_false]
  · simp only [h1, if_false]

theorem RungeKuttaIntegration_spec (sin : K → K) (theta omega time : K) :
    RungeKuttaIntegration sin theta omega time
      = ⟨wrap (RungeKuttaUnwrapped sin theta omega), RungeKuttaOmega sin theta omega,
          time + H⟩ := by
  simp only [RungeKuttaIntegration, f, g, two_ifs_eq_wrap, RungeKuttaUnwrapped,
    RungeKuttaOmega, stage_k1_1, stage_k1_2, stage_k2_1, stage_k2_2, stage_k3_1, stage_k3_2,
    stage_k4_1, stage_k4_2, accel]

theorem EulerIntegration_spec (sin : K → K) (theta omega time : K) :
    EulerIntegration sin theta omega time
      = ⟨wrap (EulerUnwrapped theta omega), omega + H * accel sin (EulerUnwrapped theta omega),
          time + H⟩ := by
  simp only [EulerIntegration, g, two_ifs_eq_wrap, EulerUnwrapped, accel]

theorem VerletIntegration_spec (sin : K → K) (theta omega time theta_old : K) :
    VerletIntegration sin theta omega time theta_old
      = ⟨wrap (VerletThetaNew sin theta theta_old),
          (VerletThetaNew sin theta theta_old - theta_old) / (2 * H), time + H, theta⟩ := by
  simp only [VerletIntegration, g, two_ifs_eq_wrap, VerletThetaNew, accel, pow_two]

theorem iterate_time_RungeKutta (sin : K → K) (N : ℕ) (s : PendulumState K) :
    ((RungeKuttaStep sin)^[N] s).time = s.time + N * H := by
  induction N with
  | zero => simp
  | succ n ih =>
    rw [Function.iterate_succ_apply', RungeKuttaStep, RungeKuttaIntegration_spec, ih]
    push_cast; ring

theorem iterate_time_Euler (sin : K → K) (N : ℕ) (s : PendulumState K) :
    ((EulerStep sin)^[N] s).time = s.time + N * H := by
  induction N with
  | zero => simp
  | succ n ih =>
    rw [Function.iterate_succ_apply', EulerStep, EulerIntegration_spec, ih]
    push_cast; ring

theorem iterate_time_Verlet (sin : K → K) (N : ℕ) (s : VerletState K) :
    ((VerletStep sin)^[N] s).time = s.time + N * H := by
  induction N with
  | zero => simp
  | succ n ih =>
    rw [Function.iterate_succ_apply', VerletStep, VerletIntegration_spec, ih]
    push_cast; ring

theorem tick_parts (sin : K → K) (s : DriverState K) :
    rkPart (tick sin s) = RungeKuttaStep sin (rkPart s)
      ∧ eulerPart (tick sin s) = EulerStep sin (eulerPart s)
      ∧ verletPart (tick sin s) = VerletStep sin (verletPart s) :=
  ⟨rfl, rfl, rfl⟩

/-- The sine at the post-update Euler angle of the initial state differs from
the sine at the initial angle. -/
theorem sin_initial_lt :
    Real.sin (PI / 4) < Real.sin (PI / 4 + H * 2) := by
  have hpi : (3 : ℝ) < Real.pi := Real.pi_gt_three
  apply Real.strictMonoOn_sin
  · simp only [Set.mem_Icc, PI]; constructor <;> norm_num <;> linarith
  · simp only [Set.mem_Icc, PI, H]; constructor <;> norm_num <;> linarith
  · simp only [H]; norm_num

theorem wrap_of_inRange {u : K} (h : -2 * PI ≤ u ∧ u ≤ 2 * PI) : wrap u = u := by
  unfold wrap
  rw [if_neg (not_lt.mpr h.2), if_neg (not_lt.mpr h.1)]

theorem wrap_of_gt {u : K} (h : u > 2 * PI) : wrap u = u - 2 * PI := by
  unfold wrap
  rw [if_pos h]

theorem wrap_of_lt {u : K} (h : u < -2 * PI) : wrap u = u + 2 * PI := by
  have hpi : (0 : K) < PI := PI_pos
  unfold wrap
  rw [if_neg (by intro h2; linarith), if_pos h]

theorem inRange_wrap_iff (u : K) : inRange (wrap u) ↔ |u| ≤ 4 * PI := by
  have hpi : (0 : K) < PI := PI_pos
  rw [abs_le]
  unfold inRange
  rcases lt_trichotomy u (-2 * PI) with h | h | h
  · rw [wrap_of_lt h]
    constructor
    · rintro ⟨h1, h2⟩; constructor <;> linarith
    · rintro ⟨h1, h2⟩; constructor <;> linarith
  · rw [wrap_of_inRange ⟨by linarith, by linarith⟩]
    constructor
    · rintro ⟨h1, h2⟩; constructor <;> linarith
    · rintro ⟨h1, h2⟩; constructor <;> linarith
  · by_cases h2 : u > 2 * PI
    · rw [wrap_of_gt h2]
      constructor
      · rintro ⟨h1, h3⟩; constructor <;> linarith
      · rintro ⟨h1, h3⟩; constructor <;> linarith
    · rw [wrap_of_inRange ⟨by linarith, by linarith⟩]
      constructor
      · rintro ⟨h1, h3⟩; constructor <;> linarith
      · rintro ⟨h1, h3⟩; constructor <;> linarith

theorem wrapContract_wrap (u : K) : wrapContract u (wrap u) :=
  ⟨wrap_of_inRange, wrap_of_gt, wrap_of_lt, inRange_wrap_iff u⟩

theorem wrap_neg (u : K) : wrap (-u) = -wrap u := by
  have hpi : (0 : K) < PI := PI_pos
  rcases lt_trichotomy u (-2 * PI) with h | h | h
  · rw [wrap_of_lt h, wrap_of_gt (by linarith)]; ring
  · rw [wrap_of_inRange (u := u) ⟨by linarith, by linarith⟩,
      wrap_of_inRange (u := -u) ⟨by linarith, by linarith⟩]
  · by_cases h2 : u > 2 * PI
    · rw [wrap_of_gt h2, wrap_of_lt (by linarith)]; ring
    · rw [wrap_of_inRange (u := u) ⟨by linarith, by linarith⟩,
        wrap_of_inRange (u := -u) ⟨by linarith, by linarith⟩]

theorem accel_neg (sin : K → K) (hodd : ∀ x, sin (-x) = -sin x) (x : K) :
    accel sin (-x) = -accel sin x := by
  unfold accel; rw [hodd]; ring

theorem sin_zero_of_odd (sin : K → K) (hodd : ∀ x, sin (-x) = -sin x) : sin 0 = 0 := by
  have h := hodd 0
  rw [neg_zero] at h
  linarith

theorem accel_zero (sin : K → K) (hodd : ∀ x, sin (-x) = -sin x) : accel sin 0 = 0 := by
  unfold accel; rw [sin_zero_of_odd sin hodd]; ring

theorem wrap_zero : wrap (0 : K) = 0 := by
  have hpi : (0 : K) < PI := PI_pos
  exact wrap_of_inRange ⟨by linarith, by linarith⟩

theorem RungeKuttaUnwrapped_neg (sin : K → K) (hodd : ∀ x, sin (-x) = -sin x)
    (theta omega : K) :
    RungeKuttaUnwrapped sin (-theta) (-omega) = -RungeKuttaUnwrapped sin theta omega
    ∧ RungeKuttaOmega sin (-theta) (-omega) = -RungeKuttaOmega sin theta omega := by
  have a := accel_neg sin hodd
  have e11 : stage_k1_1 (-omega) = -stage_k1_1 omega := by
    unfold stage_k1_1; ring
  have e12 : stage_k1_2 sin (-theta) = -stage_k1_2 sin theta := by
    unfold stage_k1_2; rw [a]; ring
  have e21 : stage_k2_1 sin (-theta) (-omega) = -stage_k2_1 sin theta omega := by
    unfold stage_k2_1; rw [e12]; ring
  have e22 : stage_k2_2 sin (-theta) (-omega) = -stage_k2_2 sin theta omega := by
    unfold stage_k2_2
    rw [e11, show -theta + -stage_k1_1 omega / 2 = -(theta + stage_k1_1 omega / 2) by ring, a]
    ring
  have e31 : stage_k3_1 sin (-theta) (-omega) = -stage_k3_1 sin theta omega := by
    unfold stage_k3_1; rw [e22]; ring
  have e32 : stage_k3_2 sin (-theta) (-omega) = -stage_k3_2 sin theta omega := by
    unfold stage_k3_2
    rw [e21, show -theta + -stage_k2_1 sin theta omega / 2
      = -(theta + stage_k2_1 sin theta omega / 2) by ring, a]
    ring
  have e41 : stage_k4_1 sin (-theta) (-omega) = -stage_k4_1 sin theta omega := by
    unfold stage_k4_1; rw [e32]; ring
  have e42 : stage_k4_2 sin (-theta) (-omega) = -stage_k4_2 sin theta omega := by
    unfold stage_k4_2
    rw [e31, show -theta + -stage_k3_1 sin theta omega
      = -(theta + stage_k3_1 sin theta omega) by ring, a]
    ring
  constructor
  · unfold RungeKuttaUnwrapped; rw [e11, e21, e31, e41]; ring
  · unfold RungeKuttaOmega; rw [e12, e22, e32, e42]; ring

theorem RungeKuttaUnwrapped_zero (sin : K → K) (hodd : ∀ x, sin (-x) = -sin x) :
    RungeKuttaUnwrapped sin 0 0 = 0 ∧ RungeKuttaOmega sin 0 0 = 0 := by
  have h := RungeKuttaUnwrapped_neg sin hodd 0 0
  rw [neg_zero] at h
  constructor
  · linarith [h.1]
  · linarith [h.2]

/-- With a sine bounded by one, the unwrapped Runge-Kutta angle stays within
`0.0002` of `theta + H * omega` (the exact bound is
`H^2 * (GRAVITY / ROD_LENGHT) / 2`). -/
theorem RungeKuttaUnwrapped_near (sin : K → K) (hb : ∀ x, |sin x| ≤ 1) (theta omega : K) :
    |RungeKuttaUnwrapped sin theta omega - (theta + H * omega)| ≤ 0.0002 := by
  have h1 := abs_le.mp (hb theta)
  have h2 := abs_le.mp (hb (theta + stage_k1_1 omega / 2))
  have h3 := abs_le.mp (hb (theta + stage_k2_1 sin theta omega / 2))
  have e : RungeKuttaUnwrapped sin theta omega - (theta + H * omega)
      = H * (stage_k1_2 sin theta + stage_k2_2 sin theta omega
          + stage_k3_2 sin theta omega) / 6 := by
    simp only [RungeKuttaUnwrapped, stage_k1_1, stage_k2_1, stage_k3_1, stage_k4_1]
    ring
  rw [e, abs_le]
  simp only [stage_k1_2, stage_k2_2, stage_k3_2, accel, H, GRAVITY, ROD_LENGHT] at *
  constructor <;> norm_num <;> linarith

/-- With a sine bounded by one, the unwrapped Verlet angle stays within
`0.0004` of `2 * theta - theta_old` (the exact bound is
`H^2 * (GRAVITY / ROD_LENGHT)`). -/
theorem VerletThetaNew_near (sin : K → K) (hb : ∀ x, |sin x| ≤ 1) (theta theta_old : K) :
    |VerletThetaNew sin theta theta_old - (2 * theta - theta_old)| ≤ 0.0004 := by
  have h1 := abs_le.mp (hb theta)
  have e : VerletThetaNew sin theta theta_old - (2 * theta - theta_old)
      = H ^ 2 * accel sin theta := by
    simp only [VerletThetaNew]; ring
  rw [e, abs_le]
  simp only [accel, H, GRAVITY, ROD_LENGHT] at *
  constructor <;> norm_num <;> linarith

theorem abs_real_sin_le_one (x : ℝ) : |Real.sin x| ≤ 1 :=
  Real.abs_sin_le_one x

theorem parts_iterate_tick (sin : K → K) (N : ℕ) (s : DriverState K) :
    rkPart ((tick sin)^[N] s) = (RungeKuttaStep sin)^[N] (rkPart s)
      ∧ eulerPart ((tick sin)^[N] s) = (EulerStep sin)^[N] (eulerPart s)
      ∧ verletPart ((tick sin)^[N] s) = (VerletStep sin)^[N] (verletPart s) := by
  induction N with
  | zero => exact ⟨rfl, rfl, rfl⟩
  | succ n ih =>
    simp only [Function.iterate_succ_apply']
    obtain ⟨h1, h2, h3⟩ := tick_parts sin ((tick sin)^[n] s)
    rw [h1, h2, h3, ih.1, ih.2.1, ih.2.2]
    exact ⟨rfl, rfl, rfl⟩

theorem iterate_inRange_RungeKutta (sin : K → K) (N : ℕ) (s : PendulumState K)
    (h : ∀ k, k < N → |RungeKuttaUnwrapped sin ((RungeKuttaStep sin)^[k] s).theta
      ((RungeKuttaStep sin)^[k] s).angular_velocity| ≤ 4 * PI)
    (k : ℕ) (h1 : 1 ≤ k) (h2 : k ≤ N) : inRange ((RungeKuttaStep sin)^[k] s).theta := by
  obtain ⟨j, rfl⟩ : ∃ j, k = j + 1 := ⟨k - 1, by omega⟩
  rw [Function.iterate_succ_apply', RungeKuttaStep, RungeKuttaIntegration_spec]
  exact (inRange_wrap_iff _).mpr (h j (by omega))

theorem iterate_inRange_Euler (sin : K → K) (N : ℕ) (s : PendulumState K)
    (h : ∀ k, k < N → |EulerUnwrapped ((EulerStep sin)^[k] s).theta
      ((EulerStep sin)^[k] s).angular_velocity| ≤ 4 * PI)
    (k : ℕ) (h1 : 1 ≤ k) (h2 : k ≤ N) : inRange ((EulerStep sin)^[k] s).theta := by
  obtain ⟨j, rfl⟩ : ∃ j, k = j + 1 := ⟨k - 1, by omega⟩
  rw [Function.iterate_succ_apply', EulerStep, EulerIntegration_spec]
  exact (inRange_wrap_iff _).mpr (h j (by omega))

theorem iterate_inRange_Verlet (sin : K → K) (N : ℕ) (s : VerletState K)
    (h : ∀ k, k < N → |VerletThetaNew sin ((VerletStep sin)^[k] s).theta
      ((VerletStep sin)^[k] s).theta_old| ≤ 4 * PI)
    (k : ℕ) (h1 : 1 ≤ k) (h2 : k ≤ N) : inRange ((VerletStep sin)^[k] s).theta := by
  obtain ⟨j, rfl⟩ : ∃ j, k = j + 1 := ⟨k - 1, by omega⟩
  rw [Function.iterate_succ_apply', VerletStep, VerletIntegration_spec]
  exact (inRange_wrap_iff _).mpr (h j (by omega))

end Lemmas

section Claims

/-- C1: for every input state, `EulerIntegration` returns
`theta' = wrap (theta + H*omega)`, `omega' = omega + H*g(theta + H*omega)` and
`time' = time + H`: the acceleration is evaluated at the already-updated,
not yet wrapped angle.  At the initial state `(PI/4, 2)`, with the real sine,
this `omega'` differs from the explicit-Euler value `omega + H*g(theta)`. -/
theorem EulerIntegration_semi_implicit :
    (∀ (K : Type) [LinearOrderedField K] (sin : K → K) (theta omega time : K),
      EulerIntegration sin theta omega time
        = ⟨wrap (theta + H * omega), omega + H * accel sin (theta + H * omega), time + H⟩)
    ∧ (EulerIntegration Real.sin (PI / 4) 2 0).angular_velocity
        ≠ explicitEulerOmega Real.sin (PI / 4) 2 := by
  refine ⟨fun K _ sin theta omega time => EulerIntegration_spec sin theta omega time, ?_⟩
  rw [EulerIntegration_spec]
  simp only [explicitEulerOmega, EulerUnwrapped, accel]
  intro h
  have hlt := sin_initial_lt
  have hH : (H : ℝ) * (-(GRAVITY / ROD_LENGHT)) < 0 := by
    simp only [H, GRAVITY, ROD_LENGHT]; norm_num
  have hmul := mul_lt_mul_of_neg_left hlt hH
  have h2 : (H : ℝ) * (-(GRAVITY / ROD_LENGHT)) * Real.sin (PI / 4 + H * 2)
      = (H : ℝ) * (-(GRAVITY / ROD_LENGHT)) * Real.sin (PI / 4) := by
    linarith
  linarith

/-- C2: for every input state, `RungeKuttaIntegration` returns
`theta' = wrap (theta + (k1_1 + 2*k2_1 + 2*k3_1 + k4_1)/6)`,
`omega' = omega + (k1_2 + 2*k2_2 + 2*k3_2 + k4_2)/6` and `time' = time + H`,
where the eight stage values are the functions `stage_k*` of the pre-step
`theta` and `omega` only. -/
theorem RungeKuttaIntegration_stages {K : Type} [LinearOrderedField K] (sin : K → K)
    (theta omega time : K) :
    RungeKuttaIntegration sin theta omega time
      = ⟨wrap (theta + (stage_k1_1 omega + 2 * stage_k2_1 sin theta omega
            + 2 * stage_k3_1 sin theta omega + stage_k4_1 sin theta omega) / 6),
          omega + (stage_k1_2 sin theta + 2 * stage_k2_2 sin theta omega
            + 2 * stage_k3_2 sin theta omega + stage_k4_2 sin theta omega) / 6,
          time + H⟩ :=
  RungeKuttaIntegration_spec sin theta omega time

/-- C3: for every input state, `VerletIntegration` computes
`theta_new = 2*theta - theta_old + H^2*g(theta)` and returns
`theta' = wrap theta_new`, `omega' = (theta_new - theta_old)/(2*H)` with the
pre-step `theta_old`, `time' = time + H` and `theta_old' = theta`; the result
is the same for every input `omega`. -/
theorem VerletIntegration_central_difference {K : Type} [LinearOrderedField K] (sin : K → K)
    (theta omega time theta_old : K) :
    VerletIntegration sin theta omega time theta_old
        = ⟨wrap (2 * theta - theta_old + H ^ 2 * accel sin theta),
            ((2 * theta - theta_old + H ^ 2 * accel sin theta) - theta_old) / (2 * H),
            time + H, theta⟩
    ∧ ∀ omega2 : K, VerletIntegration sin theta omega2 time theta_old
        = VerletIntegration sin theta omega time theta_old := by
  refine ⟨VerletIntegration_spec sin theta omega time theta_old, fun omega2 => ?_⟩
  rw [VerletIntegration_spec, VerletIntegration_spec]

/-- C5: each of the three step functions returns `time + H` with `H = 0.005`,
whatever `theta`, `omega` and `theta_old` are; hence after `N` steps from time
`0` the time is `N*H`, and after `N` ticks of the driver from the initial
state the three clocks all read `N*H`. -/
theorem time_advances_by_H {K : Type} [LinearOrderedField K] (sin : K → K) :
    (H : K) = 0.005
    ∧ (∀ theta omega time : K,
        (RungeKuttaIntegration sin theta omega time).time = time + H
        ∧ (EulerIntegration sin theta omega time).time = time + H
        ∧ ∀ theta_old : K, (VerletIntegration sin theta omega time theta_old).time = time + H)
    ∧ (∀ (N : ℕ) (theta omega theta_old : K),
        ((RungeKuttaStep sin)^[N] ⟨theta, omega, 0⟩).time = N * H
        ∧ ((EulerStep sin)^[N] ⟨theta, omega, 0⟩).time = N * H
        ∧ ((VerletStep sin)^[N] ⟨theta, omega, 0, theta_old⟩).time = N * H)
    ∧ (∀ N : ℕ,
        ((tick sin)^[N] initialState).time_rk = N * H
        ∧ ((tick sin)^[N] initialState).time_euler = N * H
        ∧ ((tick sin)^[N] initialState).time_verlet = N * H) := by
  refine ⟨rfl, fun theta omega time => ⟨?_, ?_, fun theta_old => ?_⟩,
    fun N theta omega theta_old => ⟨?_, ?_, ?_⟩, fun N => ?_⟩
  · rw [RungeKuttaIntegration_spec]
  · rw [EulerIntegration_spec]
  · rw [VerletIntegration_spec]
  · rw [iterate_time_RungeKutta]; simp
  · rw [iterate_time_Euler]; simp
  · rw [iterate_time_Verlet]; simp
  · obtain ⟨h1, h2, h3⟩ := parts_iterate_tick sin N (initialState : DriverState K)
    have t1 := congrArg PendulumState.time h1
    have t2 := congrArg PendulumState.time h2
    have t3 := congrArg VerletState.time h3
    rw [iterate_time_RungeKutta] at t1
    rw [iterate_time_Euler] at t2
    rw [iterate_time_Verlet] at t3
    simp only [rkPart, eulerPart, verletPart, initialState, TIME_INIT_VALUE, zero_add]
      at t1 t2 t3
    exact ⟨t1, t2, t3⟩

/-- C6: before the first step each scheme holds `(theta, omega, time) =
(PI/4, 2, 0)` and Verlet holds `theta_old = PI/4 - 2*0.005`, with
`PI = 3.141592`; exactly, `theta0 = 0.785398` and `theta_old = 0.775398`,
which is within half a unit of the fourth decimal of `0.7754`. -/
theorem initialState_values {K : Type} [LinearOrderedField K] :
    (PI : K) = 3.141592
    ∧ rkPart (initialState : DriverState K) = ⟨PI / 4, 2, 0⟩
    ∧ eulerPart (initialState : DriverState K) = ⟨PI / 4, 2, 0⟩
    ∧ verletPart (initialState : DriverState K) = ⟨PI / 4, 2, 0, PI / 4 - 2 * 0.005⟩
    ∧ (PI : K) / 4 = 0.785398
    ∧ (initialState : DriverState K).theta_old_verlet = 0.775398
    ∧ |(initialState : DriverState K).theta_old_verlet - 0.7754| < 0.00005 := by
  refine ⟨rfl, rfl, rfl, ?_, ?_, ?_, ?_⟩
  · simp only [verletPart, initialState, THETA_INIT_VALUE, ANGULAR_VELOCITY_INIT_VALUE,
      TIME_INIT_VALUE, H]
  · simp only [PI]; norm_num
  · simp only [initialState, THETA_INIT_VALUE, ANGULAR_VELOCITY_INIT_VALUE, H, PI]; norm_num
  · simp only [initialState, THETA_INIT_VALUE, ANGULAR_VELOCITY_INIT_VALUE, H, PI]
    rw [abs_lt]; constructor <;> norm_num

/-- C7: one tick applies `RungeKuttaIntegration`, `EulerIntegration` and
`VerletIntegration` once each to its own variables, and the variables of a
scheme after the tick depend only on that scheme's variables before it: two
driver states that agree on one scheme agree on it after a tick, whatever the
other two schemes hold. -/
theorem tick_schemes_independent {K : Type} [LinearOrderedField K] (sin : K → K)
    (s : DriverState K) :
    (rkPart (tick sin s)
        = RungeKuttaIntegration sin s.theta_rk s.angular_velocity_rk s.time_rk
      ∧ eulerPart (tick sin s)
        = EulerIntegration sin s.theta_euler s.angular_velocity_euler s.time_euler
      ∧ verletPart (tick sin s)
        = VerletIntegration sin s.theta_verlet s.angular_velocity_verlet s.time_verlet
            s.theta_old_verlet)
    ∧ (∀ s2 : DriverState K, rkPart s2 = rkPart s → rkPart (tick sin s2) = rkPart (tick sin s))
    ∧ (∀ s2 : DriverState K, eulerPart s2 = eulerPart s →
        eulerPart (tick sin s2) = eulerPart (tick sin s))
    ∧ (∀ s2 : DriverState K, verletPart s2 = verletPart s →
        verletPart (tick sin s2) = verletPart (tick sin s)) := by
  refine ⟨tick_parts sin s, fun s2 h => ?_, fun s2 h => ?_, fun s2 h => ?_⟩
  · rw [(tick_parts sin s2).1, (tick_parts sin s).1, h]
  · rw [(tick_parts sin s2).2.1, (tick_parts sin s).2.1, h]
  · rw [(tick_parts sin s2).2.2, (tick_parts sin s).2.2, h]

/-- Witness for C7: two driver states that hold the initial Runge-Kutta
variables but differ in the Euler and Verlet variables have the same
Runge-Kutta variables after a tick. -/
theorem tick_schemes_independent_witness :
    rkPart ({ (initialState : DriverState ℝ) with
        theta_euler := 1, angular_velocity_euler := -3, theta_verlet := 5,
        theta_old_verlet := 4 } : DriverState ℝ) = rkPart (initialState : DriverState ℝ)
    ∧ rkPart (tick Real.sin ({ (initialState : DriverState ℝ) with
        theta_euler := 1, angular_velocity_euler := -3, theta_verlet := 5,
        theta_old_verlet := 4 } : DriverState ℝ))
      = rkPart (tick Real.sin (initialState : DriverState ℝ)) :=
  ⟨rfl, (tick_schemes_independent Real.sin initialState).2.1 _ rfl⟩

/-- C8: in each of the three step functions the returned `theta` is related
to the unwrapped new angle `u` by the single-shift wrap: it is `u` when
`-2*PI ≤ u ≤ 2*PI`, `u - 2*PI` when `u > 2*PI`, `u + 2*PI` when `u < -2*PI`,
and it lies in `[-2*PI, 2*PI]` if and only if `|u| ≤ 4*PI`. -/
theorem wrap_shifts_once {K : Type} [LinearOrderedField K] (sin : K → K)
    (theta omega time theta_old : K) :
    wrapContract
        (theta + (stage_k1_1 omega + 2 * stage_k2_1 sin theta omega
          + 2 * stage_k3_1 sin theta omega + stage_k4_1 sin theta omega) / 6)
        (RungeKuttaIntegration sin theta omega time).theta
    ∧ wrapContract (theta + H * omega) (EulerIntegration sin theta omega time).theta
    ∧ wrapContract (2 * theta - theta_old + H ^ 2 * accel sin theta)
        (VerletIntegration sin theta omega time theta_old).theta := by
  rw [RungeKuttaIntegration_spec, EulerIntegration_spec, VerletIntegration_spec]
  exact ⟨wrapContract_wrap _, wrapContract_wrap _, wrapContract_wrap _⟩

/-- Witness for C8: `EulerIntegration` at `(6, 100)` has `u = 6.5 > 2*PI` and
returns `6.5 - 2*PI = 0.216816`; at `(-6, -100)` it has `u = -6.5 < -2*PI`
and returns `-0.216816`; at the initial state `(PI/4, 2)` it has
`u = 0.795398` and returns it unchanged. -/
theorem wrap_shifts_once_witness :
    ((6 : ℝ) + H * 100 > 2 * PI ∧ (EulerIntegration Real.sin 6 100 0).theta = 0.216816)
    ∧ ((-6 : ℝ) + H * (-100) < -2 * PI
        ∧ (EulerIntegration Real.sin (-6) (-100) 0).theta = -0.216816)
    ∧ ((-2 * PI ≤ (PI / 4 : ℝ) + H * 2 ∧ (PI / 4 : ℝ) + H * 2 ≤ 2 * PI)
        ∧ (EulerIntegration Real.sin (PI / 4) 2 0).theta = 0.795398) := by
  have hpi : (PI : ℝ) = 3.141592 := rfl
  have hH : (H : ℝ) = 0.005 := rfl
  have c1 : (6 : ℝ) + H * 100 > 2 * PI := by rw [hpi, hH]; norm_num
  have c2 : (-6 : ℝ) + H * (-100) < -2 * PI := by rw [hpi, hH]; norm_num
  have c3 : -2 * PI ≤ (PI / 4 : ℝ) + H * 2 ∧ (PI / 4 : ℝ) + H * 2 ≤ 2 * PI := by
    rw [hpi, hH]; constructor <;> norm_num
  refine ⟨⟨c1, ?_⟩, ⟨c2, ?_⟩, ⟨c3, ?_⟩⟩
  · rw [(wrap_shifts_once Real.sin 6 100 0 0).2.1.2.1 c1, hpi, hH]; norm_num
  · rw [(wrap_shifts_once Real.sin (-6) (-100) 0 0).2.1.2.2.1 c2, hpi, hH]; norm_num
  · rw [(wrap_shifts_once Real.sin (PI / 4) 2 0 0).2.1.1 c3, hpi, hH]; norm_num

/-- C9: `VerletIntegration` stores the unwrapped pre-step `theta` as
`theta_old` while it wraps `theta`: with `theta_new = 2*theta - theta_old +
H^2*g(theta)`, the returned pair satisfies `theta' - theta_old' =
(theta - theta_old) + H^2*g(theta)` when `|theta_new| ≤ 2*PI`, that value
minus `2*PI` when `theta_new > 2*PI`, and that value plus `2*PI` when
`theta_new < -2*PI`. -/
theorem VerletIntegration_history_gap {K : Type} [LinearOrderedField K] (sin : K → K)
    (theta omega time theta_old : K) :
    (VerletIntegration sin theta omega time theta_old).theta_old = theta
    ∧ (|2 * theta - theta_old + H ^ 2 * accel sin theta| ≤ 2 * PI →
        (VerletIntegration sin theta omega time theta_old).theta
          - (VerletIntegration sin theta omega time theta_old).theta_old
          = (theta - theta_old) + H ^ 2 * accel sin theta)
    ∧ (2 * theta - theta_old + H ^ 2 * accel sin theta > 2 * PI →
        (VerletIntegration sin theta omega time theta_old).theta
          - (VerletIntegration sin theta omega time theta_old).theta_old
          = (theta - theta_old) + H ^ 2 * accel sin theta - 2 * PI)
    ∧ (2 * theta - theta_old + H ^ 2 * accel sin theta < -2 * PI →
        (VerletIntegration sin theta omega time theta_old).theta
          - (VerletIntegration sin theta omega time theta_old).theta_old
          = (theta - theta_old) + H ^ 2 * accel sin theta + 2 * PI) := by
  rw [VerletIntegration_spec]
  simp only [VerletThetaNew]
  refine ⟨trivial, fun h => ?_, fun h => ?_, fun h => ?_⟩
  · rw [abs_le] at h
    rw [wrap_of_inRange ⟨by linarith [h.1], h.2⟩]; ring
  · rw [wrap_of_gt h]; ring
  · rw [wrap_of_lt h]; ring

/-- Witness for C9: with the real sine, `VerletIntegration` at `theta = 0`,
`theta_old = -7` has `theta_new = 7 > 2*PI`; it returns `theta_old = 0` and
`theta = 7 - 2*PI`, so that the stored difference is `0.716816` instead of
`7`. -/
theorem VerletIntegration_history_gap_witness :
    2 * (0 : ℝ) - (-7) + H ^ 2 * accel Real.sin 0 > 2 * PI
    ∧ (VerletIntegration Real.sin 0 0 0 (-7)).theta
        - (VerletIntegration Real.sin 0 0 0 (-7)).theta_old = 0.716816 := by
  have hpi : (PI : ℝ) = 3.141592 := rfl
  have c : 2 * (0 : ℝ) - (-7) + H ^ 2 * accel Real.sin 0 > 2 * PI := by
    simp only [accel, Real.sin_zero, hpi]; norm_num
  refine ⟨c, ?_⟩
  rw [(VerletIntegration_history_gap Real.sin 0 0 0 (-7)).2.2.1 c]
  simp only [accel, Real.sin_zero, hpi]; norm_num

/-- C4, as stated, fails: from `theta = 0`, which satisfies
`-2*PI ≤ theta ≤ 2*PI`, each step function returns a `theta` above `2*PI`
(with the real sine): `RungeKuttaIntegration` and `EulerIntegration` at
`omega = 10000`, where Euler returns `50 - 2*PI = 43.716816`, and
`VerletIntegration` at `theta_old = -100`, where it returns
`100 - 2*PI = 93.716816`.  For Verlet the same happens with `theta = 6` and
`theta_old = -6`, both inside `[-2*PI, 2*PI]`. -/
theorem wrap_invariant_counterexample :
    inRange (0 : ℝ)
    ∧ ¬ inRange (RungeKuttaIntegration Real.sin 0 10000 0).theta
    ∧ (EulerIntegration Real.sin 0 10000 0).theta = 43.716816
    ∧ ¬ inRange (EulerIntegration Real.sin 0 10000 0).theta
    ∧ (VerletIntegration Real.sin 0 0 0 (-100)).theta = 93.716816
    ∧ ¬ inRange (VerletIntegration Real.sin 0 0 0 (-100)).theta
    ∧ inRange (6 : ℝ) ∧ inRange (-6 : ℝ)
    ∧ ¬ inRange (VerletIntegration Real.sin 6 0 0 (-6)).theta := by
  have hpi : (PI : ℝ) = 3.141592 := rfl
  have hH : (H : ℝ) = 0.005 := rfl
  have hrk := abs_le.mp (RungeKuttaUnwrapped_near Real.sin abs_real_sin_le_one 0 10000)
  have hve := abs_le.mp (VerletThetaNew_near Real.sin abs_real_sin_le_one 6 (-6))
  have heu : EulerUnwrapped (0 : ℝ) 10000 = 50 := by
    simp only [EulerUnwrapped, H]; norm_num
  have hv : VerletThetaNew Real.sin 0 (-100) = 100 := by
    simp only [VerletThetaNew, accel, Real.sin_zero]; norm_num
  rw [RungeKuttaIntegration_spec, EulerIntegration_spec, VerletIntegration_spec,
    VerletIntegration_spec, heu, hv]
  simp only [inRange_wrap_iff, not_le]
  rw [hH] at hrk
  refine ⟨?_, ?_, ?_, ?_, ?_, ?_, ?_, ?_, ?_⟩
  · unfold inRange; rw [hpi]; constructor <;> norm_num
  · apply lt_of_lt_of_le _ (le_abs_self _)
    rw [hpi]; norm_num at hrk ⊢; linarith [hrk.1]
  · rw [wrap_of_gt (by rw [hpi]; norm_num), hpi]; norm_num
  · rw [hpi]; norm_num [abs_of_pos]
  · rw [wrap_of_gt (by rw [hpi]; norm_num), hpi]; norm_num
  · rw [hpi]; norm_num [abs_of_pos]
  · unfold inRange; rw [hpi]; constructor <;> norm_num
  · unfold inRange; rw [hpi]; constructor <;> norm_num
  · apply lt_of_lt_of_le _ (le_abs_self _)
    rw [hpi]; norm_num at hve ⊢; linarith [hve.1]

/-- C4, amended: each of the three step functions returns a `theta` with
`-2*PI ≤ theta ≤ 2*PI` whenever the unwrapped new angle `u` of that step
satisfies `|u| ≤ 4*PI`; hence along a run of `N` steps in which every step
has `|u| ≤ 4*PI`, the predicate holds after every step. -/
theorem wrap_invariant_of_bounded_step {K : Type} [LinearOrderedField K] (sin : K → K) :
    (∀ theta omega time : K, |RungeKuttaUnwrapped sin theta omega| ≤ 4 * PI →
        inRange (RungeKuttaIntegration sin theta omega time).theta)
    ∧ (∀ theta omega time : K, |EulerUnwrapped theta omega| ≤ 4 * PI →
        inRange (EulerIntegration sin theta omega time).theta)
    ∧ (∀ theta omega time theta_old : K, |VerletThetaNew sin theta theta_old| ≤ 4 * PI →
        inRange (VerletIntegration sin theta omega time theta_old).theta)
    ∧ (∀ (N : ℕ) (s : PendulumState K),
        (∀ k, k < N → |RungeKuttaUnwrapped sin ((RungeKuttaStep sin)^[k] s).theta
          ((RungeKuttaStep sin)^[k] s).angular_velocity| ≤ 4 * PI) →
        ∀ k, 1 ≤ k → k ≤ N → inRange ((RungeKuttaStep sin)^[k] s).theta)
    ∧ (∀ (N : ℕ) (s : PendulumState K),
        (∀ k, k < N → |EulerUnwrapped ((EulerStep sin)^[k] s).theta
          ((EulerStep sin)^[k] s).angular_velocity| ≤ 4 * PI) →
        ∀ k, 1 ≤ k → k ≤ N → inRange ((EulerStep sin)^[k] s).theta)
    ∧ (∀ (N : ℕ) (s : VerletState K),
        (∀ k, k < N → |VerletThetaNew sin ((VerletStep sin)^[k] s).theta
          ((VerletStep sin)^[k] s).theta_old| ≤ 4 * PI) →
        ∀ k, 1 ≤ k → k ≤ N → inRange ((VerletStep sin)^[k] s).theta) := by
  refine ⟨fun theta omega time h => ?_, fun theta omega time h => ?_,
    fun theta omega time theta_old h => ?_, iterate_inRange_RungeKutta sin,
    iterate_inRange_Euler sin, iterate_inRange_Verlet sin⟩
  · rw [RungeKuttaIntegration_spec]; exact (inRange_wrap_iff _).mpr h
  · rw [EulerIntegration_spec]; exact (inRange_wrap_iff _).mpr h
  · rw [VerletIntegration_spec]; exact (inRange_wrap_iff _).mpr h

/-- Witness for C4, amended: at the program's initial state, with the real
sine, the unwrapped angle of each scheme is within `4*PI`, and the first step
of each scheme returns a `theta` in `[-2*PI, 2*PI]`, also as a run of one
step. -/
theorem wrap_invariant_of_bounded_step_witness :
    (|RungeKuttaUnwrapped Real.sin (PI / 4) 2| ≤ 4 * PI
      ∧ inRange (RungeKuttaIntegration Real.sin (PI / 4) 2 0).theta)
    ∧ (|EulerUnwrapped (PI / 4 : ℝ) 2| ≤ 4 * PI
      ∧ inRange (EulerIntegration Real.sin (PI / 4) 2 0).theta)
    ∧ (|VerletThetaNew Real.sin (PI / 4) (PI / 4 - 2 * H)| ≤ 4 * PI
      ∧ inRange (VerletIntegration Real.sin (PI / 4) 2 0 (PI / 4 - 2 * H)).theta)
    ∧ inRange ((EulerStep Real.sin)^[1] ⟨PI / 4, 2, 0⟩).theta := by
  have hpi : (PI : ℝ) = 3.141592 := rfl
  have hH : (H : ℝ) = 0.005 := rfl
  have hrk := abs_le.mp (RungeKuttaUnwrapped_near Real.sin abs_real_sin_le_one (PI / 4) 2)
  have hve := abs_le.mp
    (VerletThetaNew_near Real.sin abs_real_sin_le_one (PI / 4) (PI / 4 - 2 * H))
  rw [hpi, hH] at hrk hve
  have b1 : |RungeKuttaUnwrapped Real.sin (PI / 4) 2| ≤ 4 * PI := by
    rw [abs_le, hpi]; constructor <;> norm_num at hrk ⊢ <;> linarith [hrk.1, hrk.2]
  have b2 : |EulerUnwrapped (PI / 4 : ℝ) 2| ≤ 4 * PI := by
    simp only [EulerUnwrapped, hpi, hH]; rw [abs_le]; constructor <;> norm_num
  have b3 : |VerletThetaNew Real.sin (PI / 4) (PI / 4 - 2 * H)| ≤ 4 * PI := by
    rw [abs_le, hpi, hH]; constructor <;> norm_num at hve ⊢ <;> linarith [hve.1, hve.2]
  exact ⟨⟨b1, (wrap_invariant_of_bounded_step Real.sin).1 _ _ _ b1⟩,
    ⟨b2, (wrap_invariant_of_bounded_step Real.sin).2.1 _ _ _ b2⟩,
    ⟨b3, (wrap_invariant_of_bounded_step Real.sin).2.2.1 _ _ _ _ b3⟩,
    (wrap_invariant_of_bounded_step Real.sin).2.2.2.2.1 1 ⟨PI / 4, 2, 0⟩
      (fun k hk => by
        obtain rfl : k = 0 := by omega
        exact b2) 1 le_rfl le_rfl⟩

/-- C10: when the sine is odd, the three step functions are odd in the
angular state: negating `theta` and `omega` (and `theta_old` for Verlet) at
the same `time` negates the returned `theta` and `omega` (and `theta_old`)
and leaves the returned `time` unchanged, whether or not the wrap fires; the
rest state `theta = omega = 0` (with `theta_old = 0`) is returned unchanged
apart from its time. -/
theorem steps_odd {K : Type} [LinearOrderedField K] (sin : K → K)
    (hodd : ∀ x, sin (-x) = -sin x) (theta omega time theta_old : K) :
    RungeKuttaIntegration sin (-theta) (-omega) time
        = ⟨-(RungeKuttaIntegration sin theta omega time).theta,
            -(RungeKuttaIntegration sin theta omega time).angular_velocity,
            (RungeKuttaIntegration sin theta omega time).time⟩
    ∧ EulerIntegration sin (-theta) (-omega) time
        = ⟨-(EulerIntegration sin theta omega time).theta,
            -(EulerIntegration sin theta omega time).angular_velocity,
            (EulerIntegration sin theta omega time).time⟩
    ∧ VerletIntegration sin (-theta) (-omega) time (-theta_old)
        = ⟨-(VerletIntegration sin theta omega time theta_old).theta,
            -(VerletIntegration sin theta omega time theta_old).angular_velocity,
            (VerletIntegration sin theta omega time theta_old).time,
            -(VerletIntegration sin theta omega time theta_old).theta_old⟩
    ∧ RungeKuttaIntegration sin 0 0 time = ⟨0, 0, time + H⟩
    ∧ EulerIntegration sin 0 0 time = ⟨0, 0, time + H⟩
    ∧ VerletIntegration sin 0 0 time 0 = ⟨0, 0, time + H, 0⟩ := by
  have a := accel_neg sin hodd
  have a0 := accel_zero sin hodd
  obtain ⟨r1, r2⟩ := RungeKuttaUnwrapped_neg sin hodd theta omega
  obtain ⟨z1, z2⟩ := RungeKuttaUnwrapped_zero sin hodd
  have eE : EulerUnwrapped (-theta) (-omega) = -EulerUnwrapped theta omega := by
    unfold EulerUnwrapped; ring
  have eV : VerletThetaNew sin (-theta) (-theta_old) = -VerletThetaNew sin theta theta_old := by
    unfold VerletThetaNew; rw [a]; ring
  have eE0 : EulerUnwrapped (0 : K) 0 = 0 := by
    unfold EulerUnwrapped; ring
  have eV0 : VerletThetaNew sin 0 0 = 0 := by
    unfold VerletThetaNew; rw [a0]; ring
  simp only [RungeKuttaIntegration_spec, EulerIntegration_spec, VerletIntegration_spec,
    r1, r2, eE, eV, z1, z2, eE0, eV0, wrap_neg, wrap_zero, a, a0]
  refine ⟨trivial, ?_, ?_, trivial, ?_, ?_⟩
  · rw [PendulumState.mk.injEq]; exact ⟨rfl, by ring, rfl⟩
  · rw [VerletState.mk.injEq]; exact ⟨rfl, by ring, rfl, rfl⟩
  · rw [PendulumState.mk.injEq]; exact ⟨rfl, by ring, rfl⟩
  · rw [VerletState.mk.injEq]; exact ⟨rfl, by ring, rfl, rfl⟩

/-- Witness for C10: the real sine is odd, and at the program's initial state
the three steps commute with negation of the angular state. -/
theorem steps_odd_witness :
    (∀ x : ℝ, Real.sin (-x) = -Real.sin x)
    ∧ RungeKuttaIntegration Real.sin (-(PI / 4)) (-2) 0
        = ⟨-(RungeKuttaIntegration Real.sin (PI / 4) 2 0).theta,
            -(RungeKuttaIntegration Real.sin (PI / 4) 2 0).angular_velocity,
            (RungeKuttaIntegration Real.sin (PI / 4) 2 0).time⟩
    ∧ EulerIntegration Real.sin (-(PI / 4)) (-2) 0
        = ⟨-(EulerIntegration Real.sin (PI / 4) 2 0).theta,
            -(EulerIntegration Real.sin (PI / 4) 2 0).angular_velocity,
            (EulerIntegration Real.sin (PI / 4) 2 0).time⟩
    ∧ VerletIntegration Real.sin (-(PI / 4)) (-2) 0 (-(PI / 4 - 2 * H))
        = ⟨-(VerletIntegration Real.sin (PI / 4) 2 0 (PI / 4 - 2 * H)).theta,
            -(VerletIntegration Real.sin (PI / 4) 2 0 (PI / 4 - 2 * H)).angular_velocity,
            (VerletIntegration Real.sin (PI / 4) 2 0 (PI / 4 - 2 * H)).time,
            -(VerletIntegration Real.sin (PI / 4) 2 0 (PI / 4 - 2 * H)).theta_old⟩ :=
  have h := steps_odd Real.sin Real.sin_neg (PI / 4) 2 0 (PI / 4 - 2 * H)
  ⟨Real.sin_neg, h.1, h.2.1, h.2.2.1⟩

end Claims

end Pendulum
